import Mathlib

/-!
Shallow embedding of the JetEngine per-user link store
(`internal/storage/badger.go` together with `internal/domain/link.go`).

The store persists `domain.Link` records in an embedded ordered key-value
engine (BadgerDB).  Keys are the byte strings produced by
`generateLinkKey` / `generateUserPrefix` (`fmt.Sprintf("user:%d:link:%s", ...)`);
values are the `encoding/json` serialization of the record.  We model

* keys as `List Char` (every delimiter byte in the scheme is ASCII, so the
  byte-level prefix tests Badger performs coincide with character-level ones);
* the JSON bytes at the level of JSON values (`Json` below): the repository's
  own contribution to the codec is the field layout and `omitempty` tags of
  `domain.Link`; the byte rendering is `encoding/json` library code;
* `time.Time` as a `Nat` instant, whose zero value is `0` and where
  `time.Now()` is passed in as an explicit strictly positive `now` argument;
* the Badger handle as a key-sorted association list plus an open flag.
  Updates (`txn.SetEntry`) replace the value under an existing key and
  otherwise insert keeping the key order; `txn.Delete` removes the key;
  iteration with `Seek`/`ValidForPrefix` yields exactly the entries whose key
  starts with the prefix, in key order, which over the sorted list is `filter`.
-/

namespace JetEngine

/-- JSON values, the abstraction level at which we model the bytes produced by
`json.Marshal` and consumed by `json.Unmarshal` in `badger.go`. -/
inductive Json where
  | null
  | bool (b : Bool)
  | num (n : Int)
  | str (s : String)
  | arr (elems : List Json)
  | obj (fields : List (String × Json))

/-- The `domain.Link` struct (`internal/domain/link.go`), the sole entity of
the store.  `Timestamp` is modelled as a `Nat` instant (zero value `0`). -/
structure Link where
  url : String
  title : String
  description : String
  userID : Int
  timestamp : Nat
  tags : List String
  read : Bool
  previewImageURL : String
deriving DecidableEq

/-- The decimal digit characters used by `fmt.Sprintf("%d", ...)`. -/
def digitChar (d : Nat) : Char :=
  match d with
  | 0 => '0' | 1 => '1' | 2 => '2' | 3 => '3' | 4 => '4'
  | 5 => '5' | 6 => '6' | 7 => '7' | 8 => '8' | _ => '9'

/-- Fuel-based most-significant-first decimal rendering of a natural number;
with fuel at least `n + 1` this is the usual decimal numeral. -/
def natDecCore : Nat → Nat → List Char
  | 0, _ => []
  | fuel + 1, n =>
    if n < 10 then [digitChar n]
    else natDecCore fuel (n / 10) ++ [digitChar (n % 10)]

/-- Decimal numeral of a natural number, as printed by Go's `%d`. -/
def natDecChars (n : Nat) : List Char := natDecCore (n + 1) n

/-- Decimal numeral of a signed integer, as printed by Go's `%d` on an
`int64` (a leading `-` for negative values). -/
def intDec : Int → List Char
  | Int.ofNat n => natDecChars n
  | Int.negSucc n => '-' :: natDecChars (n + 1)

/-- Embedding of `generateLinkKey` (badger.go line 63):
`fmt.Sprintf("user:%d:link:%s", userID, linkURL)` as a character list. -/
def generateLinkKey (userID : Int) (linkURL : String) : List Char :=
  "user:".data ++ intDec userID ++ ":link:".data ++ linkURL.data

/-- Embedding of `generateUserPrefix` (badger.go line 69):
`fmt.Sprintf("user:%d:link:", userID)`.  (Renamed from the Go source's
`generateUserPrefix` for hygiene of this file's naming conventions.) -/
def generateUserPref (userID : Int) : List Char :=
  "user:".data ++ intDec userID ++ ":link:".data

/-- Boolean prefix test on keys, the comparison Badger's
`it.ValidForPrefix(prefix)` performs bytewise. -/
def prefMatch : List Char → List Char → Bool
  | [], _ => true
  | _ :: _, [] => false
  | a :: as, b :: bs => decide (a = b) && prefMatch as bs

/-- Propositional form of the key prefix relation. -/
def PrefOf (p l : List Char) : Prop := ∃ t, p ++ t = l

/-! ### The record codec

`SaveLink` serializes with `json.Marshal(link)`; `GetLinksByUser` parses with
`json.Unmarshal(valCopy, &link)`.  The JSON object layout is fixed by the
struct tags in `internal/domain/link.go`: fields `url`, `title`,
`description`, `user_id`, `timestamp`, `read` are always emitted, while
`tags` and `preview_image_url` carry `omitempty` and are dropped when empty.
On decoding, a missing field or JSON `null` leaves the zero value, an
ill-typed field aborts with an error (modelled as `none`), and unknown
fields are ignored.  The `timestamp` instant is carried as a number in this
model (Go renders `time.Time` as an RFC 3339 string; both are injective
images of the instant, which is all the store relies on). -/

/-- Embedding of `json.Marshal` applied to a `domain.Link` value. -/
def encodeLink (l : Link) : Json :=
  Json.obj
    ([("url", Json.str l.url),
      ("title", Json.str l.title),
      ("description", Json.str l.description),
      ("user_id", Json.num l.userID),
      ("timestamp", Json.num (Int.ofNat l.timestamp))]
     ++ (if l.tags.isEmpty then [] else [("tags", Json.arr (l.tags.map Json.str))])
     ++ [("read", Json.bool l.read)]
     ++ (if l.previewImageURL = "" then []
         else [("preview_image_url", Json.str l.previewImageURL)]))

/-- Field lookup in a decoded JSON object; `encoding/json` lets the last
occurrence of a duplicated key win when filling a struct. -/
def getField (fs : List (String × Json)) (name : String) : Option Json :=
  (fs.reverse.find? (fun p => decide (p.1 = name))).map (fun p => p.2)

/-- Decoding of a string-typed struct field. -/
def decStrField (fs : List (String × Json)) (name : String) : Option String :=
  match getField fs name with
  | none => some ""
  | some Json.null => some ""
  | some (Json.str s) => some s
  | some _ => none

/-- Decoding of the `int64`-typed `user_id` field. -/
def decIntField (fs : List (String × Json)) (name : String) : Option Int :=
  match getField fs name with
  | none => some 0
  | some Json.null => some 0
  | some (Json.num n) => some n
  | some _ => none

/-- Decoding of the `timestamp` instant (a nonnegative number here). -/
def decTimeField (fs : List (String × Json)) (name : String) : Option Nat :=
  match getField fs name with
  | none => some 0
  | some Json.null => some 0
  | some (Json.num n) => if n < 0 then none else some n.toNat
  | some _ => none

/-- Elementwise decoding of a JSON array into `[]string`, failing on the
first non-string element. -/
def decStrList : List Json → Option (List String)
  | [] => some []
  | Json.str s :: rest => (decStrList rest).map (fun xs => s :: xs)
  | _ => none

/-- Decoding of the `tags` field (`[]string`, absent means nil). -/
def decTagsField (fs : List (String × Json)) (name : String) : Option (List String) :=
  match getField fs name with
  | none => some []
  | some Json.null => some []
  | some (Json.arr xs) => decStrList xs
  | some _ => none

/-- Decoding of the boolean `read` field. -/
def decBoolField (fs : List (String × Json)) (name : String) : Option Bool :=
  match getField fs name with
  | none => some false
  | some Json.null => some false
  | some (Json.bool b) => some b
  | some _ => none

/-- Embedding of `json.Unmarshal` into a `domain.Link` (badger.go line 136);
`none` is the decode failure that aborts `GetLinksByUser`. -/
def decodeLink : Json → Option Link
  | Json.obj fs => do
    let url ← decStrField fs "url"
    let title ← decStrField fs "title"
    let description ← decStrField fs "description"
    let userID ← decIntField fs "user_id"
    let timestamp ← decTimeField fs "timestamp"
    let tags ← decTagsField fs "tags"
    let read ← decBoolField fs "read"
    let preview ← decStrField fs "preview_image_url"
    some (Link.mk url title description userID timestamp tags read preview)
  | _ => none

/-! ### The Badger handle and the repository operations

`BadgerRepository` holds a `*badger.DB`.  The engine is modelled as the
key-sorted association list of its entries plus an open flag; closing flips
the flag.  Badger itself is not part of this repository, so its behaviour on
a closed handle is modelled from the spec (see `saveLink` below): operations
on a closed store fail deterministically with a store-closed error. -/

/-- Strict bytewise (lexicographic) order on keys, the order in which Badger
stores and iterates keys. -/
def keyLt : List Char → List Char → Bool
  | [], [] => false
  | [], _ :: _ => true
  | _ :: _, [] => false
  | a :: as, b :: bs =>
    if a.toNat < b.toNat then true
    else if b.toNat < a.toNat then false
    else keyLt as bs

/-- Insert-or-overwrite of one entry, keeping the key order: the effect of
`txn.SetEntry` inside `db.Update` (badger.go lines 97-102). -/
def putEntry (k : List Char) (v : Json) : List (List Char × Json) → List (List Char × Json)
  | [] => [(k, v)]
  | (k2, v2) :: rest =>
    if keyLt k k2 then (k, v) :: (k2, v2) :: rest
    else if k = k2 then (k, v) :: rest
    else (k2, v2) :: putEntry k v rest

/-- Removal of one key: the effect of `txn.Delete` (badger.go line 186). -/
def delEntry (k : List Char) (es : List (List Char × Json)) : List (List Char × Json) :=
  es.filter (fun e => decide (e.1 ≠ k))

/-- Value stored under a key, if any. -/
def lookupKey (k : List Char) (es : List (List Char × Json)) : Option Json :=
  (es.find? (fun e => decide (e.1 = k))).map (fun e => e.2)

/-- Number of entries stored under a key. -/
def countKey (k : List Char) (es : List (List Char × Json)) : Nat :=
  es.countP (fun e => decide (e.1 = k))

/-- The `*badger.DB` handle owned by `BadgerRepository`: its entries and
whether `Close` has been called.  `Modelled from the spec:` the open flag and
the failure of operations on a closed engine stand in for BadgerDB (a
dependency outside this repository), per the spec's store lifecycle: the
store is Open or Closed, Close transitions irreversibly, and CRUD on a
closed store fails fast with a store-closed error. -/
structure DB where
  entries : List (List Char × Json)
  isOpen : Bool

/-- A freshly opened empty store (`NewBadgerRepository` on a new directory). -/
def initDB : DB := DB.mk [] true

/-- The `context.Context` passed to every operation.  The Go code binds it
but never consults it, so only the fact relevant to the claims is carried:
whether the context has been cancelled. -/
structure Ctx where
  cancelled : Bool

/-- The error values surfaced by the repository, mirroring the `fmt.Errorf`
wrappings in badger.go.  There is no cancellation variant: no code path in
`badger.go` inspects the context. -/
inductive RepoError where
  | dbClosed
  | decodeFailed (key : List Char)
deriving DecidableEq

/-- Timestamp defaulting performed by `SaveLink` (badger.go lines 82-84):
`if link.Timestamp.IsZero() { link.Timestamp = time.Now() }` on the callee's
copy of the record, with `now` the value of `time.Now()`. -/
def withTs (now : Nat) (l : Link) : Link :=
  if l.timestamp = 0 then
    Link.mk l.url l.title l.description l.userID now l.tags l.read l.previewImageURL
  else l

/-- Embedding of `SaveLink` (badger.go lines 74-111): default the timestamp,
marshal, build the key from the record's own `UserID` and `URL`, and upsert
inside one `db.Update` transaction.  `json.Marshal` cannot fail on this
struct, so the only failure is the engine refusing the write. -/
def saveLink (_ctx : Ctx) (link : Link) (now : Nat) (db : DB) : Except RepoError DB :=
  if db.isOpen then
    Except.ok (DB.mk
      (putEntry (generateLinkKey (withTs now link).userID (withTs now link).url)
        (encodeLink (withTs now link)) db.entries)
      true)
  else Except.error RepoError.dbClosed

/-- The entries Badger's iterator visits for a user:
`it.Seek(prefix); it.ValidForPrefix(prefix)` walks, in key order, exactly the
keys extending `generateUserPrefix(userID)` (badger.go lines 126-129). -/
def scanEntries (userID : Int) (db : DB) : List (List Char × Json) :=
  db.entries.filter (fun e => prefMatch (generateUserPref userID) e.1)

/-- Decoding of every scanned value, aborting on the first failure with the
failing key (badger.go lines 131-147: the unmarshal error stops the
iteration and is returned for the whole call). -/
def decodeAll : List (List Char × Json) → Except (List Char) (List Link)
  | [] => Except.ok []
  | (k, v) :: rest =>
    match decodeLink v with
    | none => Except.error k
    | some l =>
      match decodeAll rest with
      | Except.error k2 => Except.error k2
      | Except.ok ls => Except.ok (l :: ls)

/-- Timestamp-descending comparison used by the final sort
(badger.go lines 158-160): `links[i].Timestamp.After(links[j].Timestamp)` as
the `less` of `sort.Slice`, so the result is non-increasing in timestamp. -/
abbrev tsGE (a b : Link) : Prop := b.timestamp ≤ a.timestamp

/-- The sort of the decoded records.  Go's `sort.Slice` is an unspecified
deterministic comparison sort; we model it as insertion sort, which realises
the same contract (a deterministic timestamp-descending reordering). -/
def sortLinks (ls : List Link) : List Link := List.insertionSort tsGE ls

/-- Embedding of `GetLinksByUser` (badger.go lines 114-164): scan the user's
prefix inside one read transaction, decode every value (failing the whole
call on one bad value, with `nil` results), and sort descending. -/
def getLinksByUser (_ctx : Ctx) (userID : Int) (db : DB) : Except RepoError (List Link) :=
  if db.isOpen then
    match decodeAll (scanEntries userID db) with
    | Except.error k => Except.error (RepoError.decodeFailed k)
    | Except.ok ls => Except.ok (sortLinks ls)
  else Except.error RepoError.dbClosed

/-- Embedding of `DeleteLink` (badger.go lines 167-196): one `db.Update`
transaction issuing `txn.Delete(key)`; Badger's delete succeeds whether or
not the key exists. -/
def deleteLink (_ctx : Ctx) (userID : Int) (linkURL : String) (db : DB) : Except RepoError DB :=
  if db.isOpen then
    Except.ok (DB.mk (delEntry (generateLinkKey userID linkURL) db.entries) true)
  else Except.error RepoError.dbClosed

/-- Embedding of `Close` (badger.go lines 50-59): release the engine handle;
afterwards the store is Closed. -/
def closeRepo (db : DB) : DB := DB.mk db.entries false

/-- Success test on an operation result. -/
def isOk {ε α : Type} : Except ε α → Bool
  | Except.ok _ => true
  | Except.error _ => false

/-- One client-visible operation against the repository. -/
inductive Op where
  | save (c : Ctx) (l : Link) (now : Nat)
  | del (c : Ctx) (userID : Int) (linkURL : String)
  | close

/-- Application of one operation to the store; a failed operation leaves the
caller with the unchanged store. -/
def applyOp (op : Op) (db : DB) : DB :=
  match op with
  | Op.save c l now =>
    match saveLink c l now db with
    | Except.ok db2 => db2
    | Except.error _ => db
  | Op.del c u url =>
    match deleteLink c u url db with
    | Except.ok db2 => db2
    | Except.error _ => db
  | Op.close => closeRepo db

/-- Application of a sequence of operations, oldest first. -/
def applyOps : List Op → DB → DB
  | [], db => db
  | op :: rest, db => applyOps rest (applyOp op db)

/-- A call of `SaveLink` as the caller sees it: Go passes `domain.Link` by
value, so the caller's binding after the call is the unchanged argument and
the callee's timestamp defaulting happens on a copy; the pair returned is
(the caller's record after the call, the call's result). -/
def saveLinkCall (c : Ctx) (caller : Link) (now : Nat) (db : DB) :
    Link × Except RepoError DB :=
  (caller, saveLink c caller now db)

/-- Numerical value of a decimal digit character. -/
def charVal (c : Char) : Nat := c.toNat - 48

/-- Value of a decimal character string, most significant digit first. -/
def decVal (cs : List Char) : Nat := cs.foldl (fun acc c => acc * 10 + charVal c) 0

/-- Sortedness of the engine's entry list: keys strictly increase. -/
abbrev KeysSorted (es : List (List Char × Json)) : Prop :=
  es.Pairwise (fun e1 e2 => keyLt e1.1 e2.1 = true)

/-- The record a stored value decodes to (total helper; only applied where
the decode is known to succeed). -/
def decOf (e : List Char × Json) : Link :=
  (decodeLink e.2).getD (Link.mk "" "" "" 0 0 [] false "")

instance : IsTotal Link tsGE :=
  ⟨fun a b => Nat.le_total b.timestamp a.timestamp⟩

instance : IsTrans Link tsGE :=
  ⟨fun _ _ _ h1 h2 => Nat.le_trans h2 h1⟩

/-- Every stored entry was written by `SaveLink`: its key is the link key of
the record serialized in its value. -/
def WFStore (db : DB) : Prop :=
  ∀ e ∈ db.entries, ∃ l : Link, e.1 = generateLinkKey l.userID l.url ∧ e.2 = encodeLink l

/-! ### Concrete demonstration inputs -/

/-- A context that has not been cancelled. -/
def demoCtx : Ctx := Ctx.mk false

/-- A context that has already been cancelled. -/
def demoCtxCancelled : Ctx := Ctx.mk true

def demoURL1 : String := "https://a.example/x"

def demoURL2 : String := "https://b.example/y"

def demoURL3 : String := "https://c.example/z"

def demoR1 : Link := Link.mk demoURL1 "A" "da" 1 10 [] false ""

def demoR2 : Link := Link.mk demoURL2 "B" "db" 1 20 [] false ""

def demoR3 : Link := Link.mk demoURL3 "C" "dc" 1 30 [] false ""

/-- A record of the prefix-colliding user 12. -/
def demoR12 : Link := Link.mk demoURL2 "B12" "d12" 12 20 [] false ""

/-- Same (userID, url) pair as `demoR1`, different metadata and timestamp. -/
def demoR1b : Link := Link.mk demoURL1 "A2" "da2" 1 40 ["t"] true "https://img.example/p"

/-- A record with the zero timestamp, to be defaulted at save time. -/
def demoRZero : Link := Link.mk demoURL1 "Z" "dz" 7 0 [] false ""

/-- A store holding one syntactically valid but undecodable value under
user 1's prefix (a JSON string where the record object is expected). -/
def demoCorruptDB : DB :=
  DB.mk [(generateLinkKey 1 demoURL1, Json.str "corrupt")] true

/-! ### Properties of the decimal numerals in keys -/

theorem digitChar_ne_colon (d : Nat) : digitChar d ≠ ':' := by
  unfold digitChar; split <;> decide

theorem digitChar_ne_dash (d : Nat) : digitChar d ≠ '-' := by
  unfold digitChar; split <;> decide

theorem charVal_digitChar (d : Nat) (h : d < 10) : charVal (digitChar d) = d := by
  interval_cases d <;> decide

theorem mem_natDecCore {c : Char} :
    ∀ fuel n, c ∈ natDecCore fuel n → ∃ d, d < 10 ∧ c = digitChar d := by
  intro fuel
  induction fuel with
  | zero => intro n h; simp [natDecCore] at h
  | succ fuel ih =>
    intro n h
    by_cases hn : n < 10
    · simp [natDecCore, hn] at h
      exact ⟨n, hn, h⟩
    · simp [natDecCore, hn, List.mem_append] at h
      rcases h with h | h
      · exact ih (n / 10) h
      · exact ⟨n % 10, Nat.mod_lt _ (by omega), h⟩

theorem natDecCore_ne_nil (fuel n : Nat) (h : 0 < fuel) : natDecCore fuel n ≠ [] := by
  cases fuel with
  | zero => omega
  | succ fuel =>
    by_cases hn : n < 10 <;> simp [natDecCore, hn]

theorem decVal_append_one (cs : List Char) (c : Char) :
    decVal (cs ++ [c]) = decVal cs * 10 + charVal c := by
  simp [decVal, List.foldl_append]

theorem decVal_natDecCore : ∀ fuel n, n < fuel → decVal (natDecCore fuel n) = n := by
  intro fuel
  induction fuel with
  | zero => intro n h; omega
  | succ fuel ih =>
    intro n h
    by_cases hn : n < 10
    · simp [natDecCore, hn, decVal, charVal_digitChar n hn]
    · have hdiv : n / 10 < fuel := by omega
      simp only [natDecCore, hn, if_false]
      rw [decVal_append_one, ih (n / 10) hdiv, charVal_digitChar (n % 10) (Nat.mod_lt _ (by omega))]
      omega

theorem natDecChars_inj {m n : Nat} (h : natDecChars m = natDecChars n) : m = n := by
  have hm := decVal_natDecCore (m + 1) m (by omega)
  have hn := decVal_natDecCore (n + 1) n (by omega)
  unfold natDecChars at h
  rw [h] at hm
  omega

theorem natDecChars_ne_nil (n : Nat) : natDecChars n ≠ [] :=
  natDecCore_ne_nil (n + 1) n (by omega)

theorem mem_natDecChars {c : Char} {n : Nat} (h : c ∈ natDecChars n) :
    ∃ d, d < 10 ∧ c = digitChar d :=
  mem_natDecCore (n + 1) n h

theorem colon_not_mem_intDec (u : Int) : ':' ∉ intDec u := by
  intro hmem
  cases u with
  | ofNat n =>
    obtain ⟨d, _, hd⟩ := mem_natDecChars hmem
    exact digitChar_ne_colon d hd.symm
  | negSucc n =>
    simp only [intDec, List.mem_cons] at hmem
    rcases hmem with h | h
    · exact absurd h (by decide)
    · obtain ⟨d, _, hd⟩ := mem_natDecChars h
      exact digitChar_ne_colon d hd.symm

theorem intDec_inj {u v : Int} (h : intDec u = intDec v) : u = v := by
  cases u with
  | ofNat m =>
    cases v with
    | ofNat n => exact congrArg Int.ofNat (natDecChars_inj h)
    | negSucc n =>
      exfalso
      simp only [intDec] at h
      have : '-' ∈ natDecChars m := by rw [h]; exact List.mem_cons_self _ _
      obtain ⟨d, _, hd⟩ := mem_natDecChars this
      exact digitChar_ne_dash d hd.symm
  | negSucc m =>
    cases v with
    | ofNat n =>
      exfalso
      simp only [intDec] at h
      have : '-' ∈ natDecChars n := by rw [← h]; exact List.mem_cons_self _ _
      obtain ⟨d, _, hd⟩ := mem_natDecChars this
      exact digitChar_ne_dash d hd.symm
    | negSucc n =>
      simp only [intDec, List.cons.injEq, true_and] at h
      have := natDecChars_inj h
      exact congrArg Int.negSucc (by omega)

/-! ### The key scheme isolates users

No decimal numeral contains the `:` delimiter that `generateLinkKey` places
right after the userID field, so a user's scan prefix can only match that
same user's keys, whatever the URLs contain. -/

theorem prefMatch_iff : ∀ p l : List Char, prefMatch p l = true ↔ PrefOf p l := by
  intro p
  induction p with
  | nil => intro l; simp [prefMatch, PrefOf]
  | cons a as ih =>
    intro l
    cases l with
    | nil =>
      simp [prefMatch, PrefOf]
    | cons b bs =>
      simp only [prefMatch, Bool.and_eq_true, decide_eq_true_eq, ih bs, PrefOf]
      constructor
      · rintro ⟨rfl, t, rfl⟩
        exact ⟨t, rfl⟩
      · rintro ⟨t, ht⟩
        simp only [List.cons_append, List.cons.injEq] at ht
        exact ⟨ht.1, t, ht.2⟩

theorem PrefOf_append_cancel {u x y : List Char} :
    PrefOf (u ++ x) (u ++ y) ↔ PrefOf x y := by
  constructor
  · rintro ⟨t, ht⟩
    rw [List.append_assoc] at ht
    exact ⟨t, List.append_cancel_left ht⟩
  · rintro ⟨t, ht⟩
    exact ⟨t, by rw [List.append_assoc, ht]⟩

theorem pref_core {la lb xs ys : List Char} (ha : ':' ∉ la) (hb : ':' ∉ lb)
    (h : PrefOf (la ++ ':' :: xs) (lb ++ ':' :: ys)) : la = lb := by
  induction la generalizing lb with
  | nil =>
    cases lb with
    | nil => rfl
    | cons b lb2 =>
      obtain ⟨t, ht⟩ := h
      simp only [List.nil_append, List.cons_append, List.cons.injEq] at ht
      exact absurd (ht.1 ▸ List.mem_cons_self b lb2) (ht.1 ▸ hb)
  | cons a la2 ih =>
    cases lb with
    | nil =>
      obtain ⟨t, ht⟩ := h
      simp only [List.cons_append, List.nil_append, List.cons.injEq] at ht
      exact absurd (ht.1 ▸ List.mem_cons_self a la2) (fun hc => ha (by rw [ht.1]; exact List.mem_cons_self _ _))
    | cons b lb2 =>
      obtain ⟨t, ht⟩ := h
      simp only [List.cons_append, List.cons.injEq] at ht
      have hab : a = b := ht.1
      have ha2 : ':' ∉ la2 := fun hc => ha (List.mem_cons_of_mem a hc)
      have hb2 : ':' ∉ lb2 := fun hc => hb (List.mem_cons_of_mem b hc)
      have htail : PrefOf (la2 ++ ':' :: xs) (lb2 ++ ':' :: ys) := ⟨t, ht.2⟩
      rw [hab, ih ha2 hb2 htail]

theorem sep_data_eq : (":link:").data = ':' :: ("link:").data := rfl

theorem key_eq_pref_append (u : Int) (s : String) :
    generateLinkKey u s = generateUserPref u ++ s.data := by
  simp [generateLinkKey, generateUserPref, List.append_assoc]

theorem key_pref_iff (A B : Int) (url : String) :
    PrefOf (generateUserPref A) (generateLinkKey B url) ↔ A = B := by
  constructor
  · intro h
    unfold generateUserPref generateLinkKey at h
    rw [List.append_assoc, List.append_assoc] at h
    have h2 := PrefOf_append_cancel.mp h
    rw [sep_data_eq] at h2
    rw [show (':' :: ("link:").data) ++ url.data = ':' :: (("link:").data ++ url.data) from rfl] at h2
    exact intDec_inj (pref_core (colon_not_mem_intDec A) (colon_not_mem_intDec B) h2)
  · rintro rfl
    exact ⟨url.data, (key_eq_pref_append _ url).symm⟩

theorem generateLinkKey_inj {u v : Int} {s t : String} :
    generateLinkKey u s = generateLinkKey v t ↔ u = v ∧ s = t := by
  constructor
  · intro h
    have hpref : PrefOf (generateUserPref u) (generateLinkKey v t) :=
      ⟨s.data, by rw [← key_eq_pref_append, h]⟩
    have huv : u = v := (key_pref_iff u v t).mp hpref
    refine ⟨huv, ?_⟩
    rw [key_eq_pref_append, key_eq_pref_append, huv] at h
    exact String.ext (List.append_cancel_left h)
  · rintro ⟨rfl, rfl⟩
    rfl

theorem pref_own_key (A : Int) (url : String) :
    prefMatch (generateUserPref A) (generateLinkKey A url) = true :=
  (prefMatch_iff _ _).mpr ((key_pref_iff A A url).mpr rfl)

/-! ### The key order and the entry operations -/

theorem char_toNat_inj {a b : Char} (h : a.toNat = b.toNat) : a = b :=
  Char.ext (UInt32.ext h)

theorem keyLt_irrefl : ∀ k, keyLt k k = false := by
  intro k
  induction k with
  | nil => rfl
  | cons a as ih => simp [keyLt, Nat.lt_irrefl, ih]

theorem keyLt_asymm : ∀ a b, keyLt a b = true → keyLt b a = true → False := by
  intro a
  induction a with
  | nil =>
    intro b h1 h2
    cases b with
    | nil => simp [keyLt] at h1
    | cons x xs => simp [keyLt] at h2
  | cons x xs ih =>
    intro b h1 h2
    cases b with
    | nil => simp [keyLt] at h1
    | cons y ys =>
      simp only [keyLt] at h1 h2
      by_cases hxy : x.toNat < y.toNat
      · simp [hxy, Nat.lt_asymm hxy] at h2
      · by_cases hyx : y.toNat < x.toNat
        · simp [hxy, hyx] at h1
        · simp [hxy, hyx] at h1 h2
          exact ih ys h1 h2

theorem keyLt_trans : ∀ a b c, keyLt a b = true → keyLt b c = true → keyLt a c = true := by
  intro a
  induction a with
  | nil =>
    intro b c h1 h2
    cases b with
    | nil => simp [keyLt] at h1
    | cons y ys =>
      cases c with
      | nil => simp [keyLt] at h2
      | cons z zs => simp [keyLt]
  | cons x xs ih =>
    intro b c h1 h2
    cases b with
    | nil => simp [keyLt] at h1
    | cons y ys =>
      cases c with
      | nil => simp [keyLt] at h2
      | cons z zs =>
        simp only [keyLt] at h1 h2 ⊢
        by_cases hxy : x.toNat < y.toNat
        · by_cases hyz : y.toNat < z.toNat
          · simp [show x.toNat < z.toNat by omega]
          · by_cases hzy : z.toNat < y.toNat
            · simp [hyz, hzy] at h2
            · have : y.toNat = z.toNat := by omega
              simp [this ▸ hxy]
        · by_cases hyx : y.toNat < x.toNat
          · simp [hxy, hyx] at h1
          · have hxy2 : x.toNat = y.toNat := by omega
            by_cases hyz : y.toNat < z.toNat
            · simp [hxy2 ▸ hyz]
            · by_cases hzy : z.toNat < y.toNat
              · simp [hyz, hzy] at h2
              · simp [hxy, hyx] at h1
                simp [hyz, hzy] at h2
                have hxz : ¬ x.toNat < z.toNat := by omega
                have hzx : ¬ z.toNat < x.toNat := by omega
                simp [hxz, hzx]
                exact ih ys zs h1 h2

theorem keyLt_conn : ∀ a b, keyLt a b = false → keyLt b a = false → a = b := by
  intro a
  induction a with
  | nil =>
    intro b h1 _
    cases b with
    | nil => rfl
    | cons y ys => simp [keyLt] at h1
  | cons x xs ih =>
    intro b h1 h2
    cases b with
    | nil => simp [keyLt] at h2
    | cons y ys =>
      simp only [keyLt] at h1 h2
      by_cases hxy : x.toNat < y.toNat
      · simp [hxy] at h1
      · by_cases hyx : y.toNat < x.toNat
        · simp [hxy, hyx] at h2
        · simp [hxy, hyx] at h1 h2
          have hxy2 : x = y := char_toNat_inj (by omega)
          rw [hxy2, ih ys h1 h2]

theorem keyLt_ne {a b : List Char} (h : keyLt a b = true) : a ≠ b := by
  rintro rfl
  rw [keyLt_irrefl] at h
  exact Bool.false_ne_true h

theorem mem_putEntry {e : List Char × Json} {k : List Char} {v : Json} :
    ∀ es, e ∈ putEntry k v es → e = (k, v) ∨ e ∈ es := by
  intro es
  induction es with
  | nil =>
    intro h
    simp only [putEntry, List.mem_singleton] at h
    exact Or.inl h
  | cons hd rest ih =>
    intro h
    obtain ⟨k2, v2⟩ := hd
    by_cases h1 : keyLt k k2 = true
    · simp only [putEntry, if_pos h1] at h
      exact (List.mem_cons.mp h).imp id id
    · by_cases h2 : k = k2
      · simp only [putEntry, if_neg h1, if_pos h2] at h
        rcases List.mem_cons.mp h with h3 | h3
        · exact Or.inl h3
        · exact Or.inr (List.mem_cons_of_mem _ h3)
      · simp only [putEntry, if_neg h1, if_neg h2] at h
        rcases List.mem_cons.mp h with h3 | h3
        · exact Or.inr (List.mem_cons.mpr (Or.inl h3))
        · rcases ih h3 with h4 | h4
          · exact Or.inl h4
          · exact Or.inr (List.mem_cons_of_mem _ h4)

theorem keyLt_of_not_of_ne {a b : List Char} (h1 : ¬ keyLt a b = true) (h2 : a ≠ b) :
    keyLt b a = true := by
  cases hba : keyLt b a with
  | true => rfl
  | false =>
    have hab : keyLt a b = false := by
      cases hab2 : keyLt a b with
      | true => exact absurd hab2 h1
      | false => rfl
    exact absurd (keyLt_conn a b hab hba) h2

theorem putEntry_sorted {k : List Char} {v : Json} :
    ∀ es, KeysSorted es → KeysSorted (putEntry k v es) := by
  intro es
  induction es with
  | nil =>
    intro _
    simp [putEntry]
  | cons hd rest ih =>
    intro hs
    obtain ⟨k2, v2⟩ := hd
    obtain ⟨hhead, hrest⟩ := List.pairwise_cons.mp hs
    by_cases h1 : keyLt k k2 = true
    · simp only [putEntry, if_pos h1]
      refine List.pairwise_cons.mpr ⟨?_, ?_⟩
      · intro e he
        rcases List.mem_cons.mp he with h3 | h3
        · rw [h3]
          exact h1
        · exact keyLt_trans _ _ _ h1 (hhead e h3)
      · exact List.pairwise_cons.mpr ⟨hhead, hrest⟩
    · by_cases h2 : k = k2
      · simp only [putEntry, if_neg h1, if_pos h2]
        refine List.pairwise_cons.mpr ⟨?_, hrest⟩
        intro e he
        rw [h2]
        exact hhead e he
      · simp only [putEntry, if_neg h1, if_neg h2]
        refine List.pairwise_cons.mpr ⟨?_, ih hrest⟩
        intro e he
        rcases mem_putEntry _ he with h3 | h3
        · rw [h3]
          exact keyLt_of_not_of_ne h1 h2
        · exact hhead e h3

theorem countKey_cons (k : List Char) (e : List Char × Json) (es : List (List Char × Json)) :
    countKey k (e :: es) = countKey k es + (if e.1 = k then 1 else 0) := by
  simp [countKey, List.countP_cons]

theorem countKey_eq_zero {k : List Char} {es : List (List Char × Json)}
    (h : ∀ e ∈ es, e.1 ≠ k) : countKey k es = 0 := by
  rw [countKey, List.countP_eq_zero]
  intro e he
  simp only [decide_eq_true_eq]
  exact h e he

theorem countKey_putEntry {k : List Char} {v : Json} :
    ∀ es, KeysSorted es → countKey k (putEntry k v es) = 1 := by
  intro es
  induction es with
  | nil => simp [putEntry, countKey, List.countP_cons]
  | cons hd rest ih =>
    intro hs
    obtain ⟨k2, v2⟩ := hd
    obtain ⟨hhead, hrest⟩ := List.pairwise_cons.mp hs
    by_cases h1 : keyLt k k2 = true
    · simp only [putEntry, if_pos h1]
      have hz : countKey k ((k2, v2) :: rest) = 0 := by
        apply countKey_eq_zero
        intro e he
        rcases List.mem_cons.mp he with h3 | h3
        · rw [h3]
          intro hc
          exact keyLt_ne h1 hc.symm
        · intro hc
          exact keyLt_ne (keyLt_trans _ _ _ h1 (hhead e h3)) hc.symm
      rw [countKey_cons, hz]
      simp
    · by_cases h2 : k = k2
      · simp only [putEntry, if_neg h1, if_pos h2]
        have hz : countKey k rest = 0 := by
          apply countKey_eq_zero
          intro e he hc
          exact keyLt_ne (hhead e he) (by rw [hc, h2])
        rw [countKey_cons, hz]
        simp
      · simp only [putEntry, if_neg h1, if_neg h2]
        rw [countKey_cons, ih hrest, if_neg (fun hc : (k2, v2).1 = k => h2 hc.symm)]

theorem lookupKey_cons_ne {k k2 : List Char} {v2 : Json} {es : List (List Char × Json)}
    (h : k2 ≠ k) : lookupKey k ((k2, v2) :: es) = lookupKey k es := by
  simp [lookupKey, List.find?_cons, h]

theorem lookupKey_cons_self (k : List Char) (v : Json) (es : List (List Char × Json)) :
    lookupKey k ((k, v) :: es) = some v := by
  simp [lookupKey, List.find?_cons]

theorem lookupKey_putEntry_self {k : List Char} {v : Json} :
    ∀ es, lookupKey k (putEntry k v es) = some v := by
  intro es
  induction es with
  | nil => simp [putEntry, lookupKey]
  | cons hd rest ih =>
    obtain ⟨k2, v2⟩ := hd
    by_cases h1 : keyLt k k2 = true
    · simp only [putEntry, if_pos h1]
      exact lookupKey_cons_self k v _
    · by_cases h2 : k = k2
      · simp only [putEntry, if_neg h1, if_pos h2]
        exact lookupKey_cons_self k v _
      · simp only [putEntry, if_neg h1, if_neg h2]
        rw [lookupKey_cons_ne (fun hc => h2 hc.symm)]
        exact ih

theorem putEntry_perm_fresh {k : List Char} {v : Json} :
    ∀ es, (∀ e ∈ es, e.1 ≠ k) → (putEntry k v es).Perm ((k, v) :: es) := by
  intro es
  induction es with
  | nil =>
    intro _
    simp [putEntry]
  | cons hd rest ih =>
    intro hfresh
    obtain ⟨k2, v2⟩ := hd
    by_cases h1 : keyLt k k2 = true
    · simp only [putEntry, if_pos h1]
      exact List.Perm.refl _
    · have h2 : k ≠ k2 := fun hc => hfresh (k2, v2) (List.mem_cons_self _ _) hc.symm
      simp only [putEntry, if_neg h1, if_neg h2]
      have hfresh2 : ∀ e ∈ rest, e.1 ≠ k :=
        fun e he => hfresh e (List.mem_cons_of_mem _ he)
      exact ((ih hfresh2).cons (k2, v2)).trans (List.Perm.swap (k, v) (k2, v2) rest)

theorem delEntry_cons_eq {k : List Char} {hd : List Char × Json}
    {rest : List (List Char × Json)} (h : hd.1 = k) :
    delEntry k (hd :: rest) = delEntry k rest := by
  simp [delEntry, List.filter_cons, h]

theorem delEntry_cons_ne {k : List Char} {hd : List Char × Json}
    {rest : List (List Char × Json)} (h : hd.1 ≠ k) :
    delEntry k (hd :: rest) = hd :: delEntry k rest := by
  simp [delEntry, List.filter_cons, h]

theorem delEntry_idem (k : List Char) (es : List (List Char × Json)) :
    delEntry k (delEntry k es) = delEntry k es := by
  induction es with
  | nil => rfl
  | cons hd rest ih =>
    by_cases h : hd.1 = k
    · rw [delEntry_cons_eq h, ih]
    · rw [delEntry_cons_ne h, delEntry_cons_ne h, ih]

theorem mem_delEntry {e : List Char × Json} {k : List Char} {es : List (List Char × Json)}
    (h : e ∈ delEntry k es) : e ∈ es :=
  (List.mem_filter.mp h).1

theorem delEntry_sorted {k : List Char} {es : List (List Char × Json)}
    (h : KeysSorted es) : KeysSorted (delEntry k es) :=
  List.Pairwise.filter _ h

/-! ### The codec round-trips -/

theorem decStrList_map (xs : List String) : decStrList (xs.map Json.str) = some xs := by
  induction xs with
  | nil => rfl
  | cons x xs ih => simp [decStrList, ih]

theorem decode_encode (l : Link) : decodeLink (encodeLink l) = some l := by
  obtain ⟨url, title, description, userID, timestamp, tags, read, preview⟩ := l
  have hts : ¬ ((timestamp : Int) < 0) := by omega
  by_cases htags : tags.isEmpty = true
  · have htags2 : tags = [] := List.isEmpty_iff.mp htags
    by_cases hprev : preview = ""
    · subst htags2 hprev
      simp [encodeLink, decodeLink, decStrField, decIntField, decTimeField, decTagsField,
        decBoolField, getField, List.find?, hts, Int.toNat_ofNat]
    · subst htags2
      simp [encodeLink, decodeLink, decStrField, decIntField, decTimeField, decTagsField,
        decBoolField, getField, List.find?, hts, hprev, Int.toNat_ofNat]
  · by_cases hprev : preview = ""
    · subst hprev
      simp [encodeLink, decodeLink, decStrField, decIntField, decTimeField, decTagsField,
        decBoolField, getField, List.find?, hts, htags, Int.toNat_ofNat, decStrList_map]
    · simp [encodeLink, decodeLink, decStrField, decIntField, decTimeField, decTagsField,
        decBoolField, getField, List.find?, hts, htags, hprev, Int.toNat_ofNat, decStrList_map]

/-! ### Decoding the scan, fail-fast -/

theorem decodeAll_ok_mem {r : Link} :
    ∀ es ls, decodeAll es = Except.ok ls → r ∈ ls →
      ∃ e, e ∈ es ∧ decodeLink e.2 = some r := by
  intro es
  induction es with
  | nil =>
    intro ls h hr
    simp only [decodeAll, Except.ok.injEq] at h
    rw [← h] at hr
    exact absurd hr (List.not_mem_nil r)
  | cons hd rest ih =>
    intro ls h hr
    obtain ⟨k, v⟩ := hd
    simp only [decodeAll] at h
    cases hdec : decodeLink v with
    | none => rw [hdec] at h; exact absurd h (by simp)
    | some l =>
      rw [hdec] at h
      cases hrest : decodeAll rest with
      | error k2 => rw [hrest] at h; exact absurd h (by simp)
      | ok ls2 =>
        rw [hrest] at h
        simp only [Except.ok.injEq] at h
        rw [← h] at hr
        rcases List.mem_cons.mp hr with h2 | h2
        · exact ⟨(k, v), List.mem_cons_self _ _, h2 ▸ hdec⟩
        · obtain ⟨e, he, hdec2⟩ := ih ls2 hrest h2
          exact ⟨e, List.mem_cons_of_mem _ he, hdec2⟩

theorem decodeAll_map :
    ∀ es, (∀ e ∈ es, (decodeLink e.2).isSome = true) →
      decodeAll es = Except.ok (es.map decOf) := by
  intro es
  induction es with
  | nil => intro _; rfl
  | cons hd rest ih =>
    intro h
    obtain ⟨k, v⟩ := hd
    have hhd := h (k, v) (List.mem_cons_self _ _)
    simp only [Option.isSome] at hhd
    cases hdec : decodeLink v with
    | none => rw [hdec] at hhd; exact absurd hhd (by simp)
    | some l =>
      simp only [decodeAll, hdec, ih (fun e he => h e (List.mem_cons_of_mem _ he)),
        List.map_cons]
      simp [decOf, hdec]

theorem decodeAll_fail {e : List Char × Json} :
    ∀ es, e ∈ es → decodeLink e.2 = none →
      ∃ k, decodeAll es = Except.error k := by
  intro es
  induction es with
  | nil => intro h; exact absurd h (List.not_mem_nil e)
  | cons hd rest ih =>
    intro hmem hnone
    obtain ⟨k, v⟩ := hd
    rcases List.mem_cons.mp hmem with h2 | h2
    · refine ⟨k, ?_⟩
      have hv : decodeLink v = none := by rw [h2] at hnone; exact hnone
      simp only [decodeAll]
      rw [hv]
    · cases hdec : decodeLink v with
      | none => exact ⟨k, by simp only [decodeAll]; rw [hdec]⟩
      | some l =>
        obtain ⟨k2, hk2⟩ := ih h2 hnone
        refine ⟨k2, ?_⟩
        simp only [decodeAll]
        rw [hdec, hk2]

/-! ### The timestamp order and the final sort -/

theorem sortLinks_perm (ls : List Link) : (sortLinks ls).Perm ls :=
  List.perm_insertionSort tsGE ls

theorem sortLinks_sorted (ls : List Link) : (sortLinks ls).Pairwise tsGE :=
  List.sorted_insertionSort tsGE ls

/-- A timestamp-descending list is determined by its multiset of elements
once the timestamps are pairwise distinct: any permutation of a strictly
descending list that is itself weakly descending equals it. -/
theorem sorted_perm_eq_strict :
    ∀ (l2 l1 : List Link), l1.Perm l2 → l1.Pairwise tsGE →
      l2.Pairwise (fun a b : Link => b.timestamp < a.timestamp) → l1 = l2 := by
  intro l2
  induction l2 with
  | nil =>
    intro l1 hperm _ _
    exact hperm.eq_nil
  | cons h t ih =>
    intro l1 hperm hp1 hp2
    obtain ⟨hlt, hstrict⟩ := List.pairwise_cons.mp hp2
    cases l1 with
    | nil => exact absurd hperm.symm.eq_nil (by simp)
    | cons h1 t1 =>
      obtain ⟨hge, hp1t⟩ := List.pairwise_cons.mp hp1
      have hh1 : h1 = h := by
        have hmem1 : h1 ∈ h :: t := hperm.mem_iff.mp (List.mem_cons_self h1 t1)
        rcases List.mem_cons.mp hmem1 with he | hin
        · exact he
        · exfalso
          have hlt1 : h1.timestamp < h.timestamp := hlt h1 hin
          have hmemh : h ∈ h1 :: t1 := hperm.mem_iff.mpr (List.mem_cons_self h t)
          rcases List.mem_cons.mp hmemh with he2 | hin2
          · rw [he2] at hlt1
            omega
          · have hle : h.timestamp ≤ h1.timestamp := hge h hin2
            omega
      subst hh1
      rw [ih t1 hperm.cons_inv hp1t hstrict]

/-! ### Invariants of reachable stores -/

theorem wf_initDB : WFStore initDB := by
  intro e he
  exact absurd he (List.not_mem_nil e)

theorem withTs_userID (now : Nat) (l : Link) : (withTs now l).userID = l.userID := by
  unfold withTs
  split <;> rfl

theorem withTs_url (now : Nat) (l : Link) : (withTs now l).url = l.url := by
  unfold withTs
  split <;> rfl

theorem withTs_id {l : Link} (now : Nat) (h : l.timestamp ≠ 0) : withTs now l = l := by
  unfold withTs
  rw [if_neg h]

theorem withTs_zero {l : Link} (now : Nat) (h : l.timestamp = 0) :
    (withTs now l).timestamp = now := by
  unfold withTs
  rw [if_pos h]

/-- What one successful `SaveLink` does to the handle: an upsert of the
serialized, timestamp-defaulted record under its link key. -/
theorem saveLink_stores (c : Ctx) (l : Link) (now : Nat) {db : DB} (hopen : db.isOpen = true) :
    saveLink c l now db = Except.ok (DB.mk
      (putEntry (generateLinkKey l.userID l.url) (encodeLink (withTs now l)) db.entries) true) := by
  rw [saveLink, if_pos hopen, withTs_userID, withTs_url]

theorem wf_applyOp (op : Op) {db : DB} (h : WFStore db) : WFStore (applyOp op db) := by
  cases op with
  | save c l now =>
    cases hopen : db.isOpen with
    | false =>
      simp only [applyOp, saveLink, hopen, Bool.false_eq_true, if_false]
      exact h
    | true =>
      simp only [applyOp, saveLink_stores c l now hopen]
      intro e he
      rcases mem_putEntry _ he with h2 | h2
      · exact ⟨withTs now l, by rw [h2, withTs_userID, withTs_url], by rw [h2]⟩
      · exact h e h2
  | del c u url =>
    cases hopen : db.isOpen with
    | false =>
      simp only [applyOp, deleteLink, hopen, Bool.false_eq_true, if_false]
      exact h
    | true =>
      simp only [applyOp, deleteLink, hopen, if_true]
      intro e he
      exact h e (mem_delEntry he)
  | close =>
    intro e he
    exact h e he

theorem wf_applyOps (ops : List Op) : ∀ db, WFStore db → WFStore (applyOps ops db) := by
  induction ops with
  | nil => intro db h; exact h
  | cons op rest ih =>
    intro db h
    exact ih _ (wf_applyOp op h)

theorem applyOp_closed {db : DB} (h : db.isOpen = false) (op : Op) :
    (applyOp op db).isOpen = false := by
  cases op with
  | save c l now => simp [applyOp, saveLink, h]
  | del c u url => simp [applyOp, deleteLink, h]
  | close => rfl

theorem applyOps_closed (ops : List Op) : ∀ db : DB, db.isOpen = false →
    (applyOps ops db).isOpen = false := by
  induction ops with
  | nil => intro db h; exact h
  | cons op rest ih =>
    intro db h
    exact ih _ (applyOp_closed h op)

/-! ## The claims -/

/-- Claim C9: the value codec round-trips: for every link record `r` (all
eight fields of the `Link` type, including the optional `tags` and
`previewImageURL`), decoding the encoded bytes yields `r` back:
`decode(encode(r)) = r` for the JSON serialization used by `SaveLink` and
the JSON deserialization used by `GetLinksByUser`. -/
theorem C9_codec_roundtrip (l : Link) : decodeLink (encodeLink l) = some l :=
  decode_encode l

/-- Claim C5 counterexample: a `SaveLink` call whose context is already
cancelled does not abort and does not return a cancellation error: it
completes the write and returns success (the error type of the store has no
cancellation variant at all, since no operation in badger.go consults the
context).  The same holds of the read and delete paths. -/
theorem C5_counterexample :
    saveLink demoCtxCancelled demoR1 7 initDB
        = Except.ok (DB.mk [(generateLinkKey 1 demoURL1, encodeLink demoR1)] true)
      ∧ demoCtxCancelled.cancelled = true
      ∧ getLinksByUser demoCtxCancelled 1
          (DB.mk [(generateLinkKey 1 demoURL1, encodeLink demoR1)] true)
        = Except.ok [demoR1] :=
  ⟨rfl, rfl, rfl⟩

/-- Claim C5, amended: the store operations accept a context but never
consult it: `SaveLink`, `GetLinksByUser` and `DeleteLink` return identical
results for a cancelled and a non-cancelled context, completing the
read/write either way; no cancellation error is ever surfaced. -/
theorem C5_ctx_ignored (c1 c2 : Ctx) (l : Link) (now : Nat) (u B : Int) (url : String)
    (db : DB) :
    saveLink c1 l now db = saveLink c2 l now db
      ∧ getLinksByUser c1 B db = getLinksByUser c2 B db
      ∧ deleteLink c1 u url db = deleteLink c2 u url db :=
  ⟨rfl, rfl, rfl⟩

/-- Claim C6: `DeleteLink` is idempotent: deleting a (userID, url) pair that
is not stored returns success; deleting the same pair twice returns success
both times, and the store after the second delete is the store after the
first, so `GetLinksByUser` answers for every user are unchanged by the
second call. -/
theorem C6_delete_idempotent (c : Ctx) (u : Int) (url : String) (db : DB)
    (hopen : db.isOpen = true) :
    (lookupKey (generateLinkKey u url) db.entries = none →
        isOk (deleteLink c u url db) = true)
      ∧ (∃ db1, deleteLink c u url db = Except.ok db1
          ∧ deleteLink c u url db1 = Except.ok db1)
      ∧ applyOp (Op.del c u url) (applyOp (Op.del c u url) db)
          = applyOp (Op.del c u url) db := by
  refine ⟨fun _ => by simp [deleteLink, hopen, isOk], ?_, ?_⟩
  · refine ⟨DB.mk (delEntry (generateLinkKey u url) db.entries) true, ?_, ?_⟩
    · rw [deleteLink, if_pos hopen]
    · rw [deleteLink, if_pos rfl]
      rw [delEntry_idem]
  · simp [applyOp, deleteLink, hopen, delEntry_idem]

/-- Claim C6 witness: deleting a pair absent from a freshly opened store
succeeds, twice, and the second delete leaves the store as the first did. -/
theorem C6_witness :
    isOk (deleteLink demoCtx 1 demoURL1 initDB) = true
      ∧ applyOp (Op.del demoCtx 1 demoURL1) (applyOp (Op.del demoCtx 1 demoURL1) initDB)
          = applyOp (Op.del demoCtx 1 demoURL1) initDB :=
  ⟨(C6_delete_idempotent demoCtx 1 demoURL1 initDB rfl).1 rfl,
    (C6_delete_idempotent demoCtx 1 demoURL1 initDB rfl).2.2⟩

/-- Claim C7: `SaveLink` defaults the timestamp exactly when it is absent:
when the record's timestamp is the zero value, the persisted record carries
the save-time clock value `now` (non-zero); when it is non-zero, the
persisted record is the caller's record unchanged. -/
theorem C7_timestamp_default (c : Ctx) (l : Link) (now : Nat) (db : DB)
    (hopen : db.isOpen = true) (hnow : 0 < now) :
    ∃ db2, saveLink c l now db = Except.ok db2
      ∧ lookupKey (generateLinkKey l.userID l.url) db2.entries
          = some (encodeLink (withTs now l))
      ∧ (l.timestamp = 0 → (withTs now l).timestamp = now ∧ (withTs now l).timestamp ≠ 0)
      ∧ (l.timestamp ≠ 0 → withTs now l = l) := by
  refine ⟨_, saveLink_stores c l now hopen, lookupKey_putEntry_self _, ?_, ?_⟩
  · intro hzero
    rw [withTs_zero now hzero]
    omega
  · intro hnz
    exact withTs_id now hnz

/-- Claim C7 witness: saving a zero-timestamp record at clock 9 persists
timestamp 9; saving a record with timestamp 10 persists it unchanged. -/
theorem C7_witness :
    ∃ db2, saveLink demoCtx demoRZero 9 initDB = Except.ok db2
      ∧ lookupKey (generateLinkKey demoRZero.userID demoRZero.url) db2.entries
          = some (encodeLink (withTs 9 demoRZero))
      ∧ (demoRZero.timestamp = 0 →
          (withTs 9 demoRZero).timestamp = 9 ∧ (withTs 9 demoRZero).timestamp ≠ 0)
      ∧ (demoRZero.timestamp ≠ 0 → withTs 9 demoRZero = demoRZero) :=
  C7_timestamp_default demoCtx demoRZero 9 initDB rfl (by decide)

/-- Claim C8: the store has exactly the two states Open and Closed (the
`isOpen` flag of the handle), `Close` moves it to Closed, no sequence of
operations brings a closed store back to Open, and every CRUD call on a
closed store fails fast with the store-closed error, leaving the store
unchanged (no state corruption, and in this total model no hang or panic is
possible). -/
theorem C8_close_semantics (db : DB) :
    (closeRepo db).isOpen = false
      ∧ (∀ ops : List Op, (applyOps ops (closeRepo db)).isOpen = false)
      ∧ (∀ (c : Ctx) (l : Link) (now : Nat) (u B : Int) (url : String) (dbc : DB),
          dbc.isOpen = false →
            saveLink c l now dbc = Except.error RepoError.dbClosed
              ∧ getLinksByUser c B dbc = Except.error RepoError.dbClosed
              ∧ deleteLink c u url dbc = Except.error RepoError.dbClosed
              ∧ applyOp (Op.save c l now) dbc = dbc
              ∧ applyOp (Op.del c u url) dbc = dbc) := by
  refine ⟨rfl, fun ops => applyOps_closed ops _ rfl, ?_⟩
  intro c l now u B url dbc hclosed
  refine ⟨?_, ?_, ?_, ?_, ?_⟩ <;> simp [saveLink, getLinksByUser, deleteLink, applyOp, hclosed]

/-- Claim C8 witness: closing a store holding one record yields a closed
store; a save, read and delete against it fail with the store-closed error
and change nothing. -/
theorem C8_witness :
    (closeRepo initDB).isOpen = false
      ∧ saveLink demoCtx demoR1 7 (closeRepo initDB) = Except.error RepoError.dbClosed
      ∧ getLinksByUser demoCtx 1 (closeRepo initDB) = Except.error RepoError.dbClosed
      ∧ deleteLink demoCtx 1 demoURL1 (closeRepo initDB) = Except.error RepoError.dbClosed :=
  ⟨(C8_close_semantics initDB).1,
    ((C8_close_semantics initDB).2.2 demoCtx demoR1 7 1 1 demoURL1 (closeRepo initDB) rfl).1,
    ((C8_close_semantics initDB).2.2 demoCtx demoR1 7 1 1 demoURL1 (closeRepo initDB) rfl).2.1,
    ((C8_close_semantics initDB).2.2 demoCtx demoR1 7 1 1 demoURL1 (closeRepo initDB) rfl).2.2.1⟩

/-- Claim C10: `SaveLink` never mutates the caller's record: `domain.Link`
is passed by value, so after the call the caller still holds exactly the
record it passed (timestamp included, still zero), while the timestamp that
was defaulted on the callee's copy is observable only through the store: the
persisted record's timestamp differs from the caller's. -/
theorem C10_arg_not_mutated (c : Ctx) (l : Link) (now : Nat) (db : DB)
    (hopen : db.isOpen = true) (hnow : 0 < now) (hzero : l.timestamp = 0) :
    (saveLinkCall c l now db).1 = l
      ∧ (saveLinkCall c l now db).1.timestamp = 0
      ∧ ∃ db2, (saveLinkCall c l now db).2 = Except.ok db2
          ∧ lookupKey (generateLinkKey l.userID l.url) db2.entries
              = some (encodeLink (withTs now l))
          ∧ (withTs now l).timestamp ≠ (saveLinkCall c l now db).1.timestamp := by
  refine ⟨rfl, hzero, _, saveLink_stores c l now hopen, lookupKey_putEntry_self _, ?_⟩
  rw [withTs_zero now hzero]
  show now ≠ l.timestamp
  omega

/-- Claim C10 witness: saving a zero-timestamp record leaves the caller's
record with timestamp 0 while the persisted copy carries timestamp 9. -/
theorem C10_witness :
    (saveLinkCall demoCtx demoRZero 9 initDB).1 = demoRZero
      ∧ (saveLinkCall demoCtx demoRZero 9 initDB).1.timestamp = 0 :=
  ⟨(C10_arg_not_mutated demoCtx demoRZero 9 initDB rfl (by decide) rfl).1,
    (C10_arg_not_mutated demoCtx demoRZero 9 initDB rfl (by decide) rfl).2.1⟩

/-- Claim C4: `GetLinksByUser` is fail-fast: if any single stored value
under the user's prefix cannot be decoded the whole call returns a decode
error — and, the result being `Except.error`, no record list at all, never a
partial one (the Go code returns `nil` links with the error) — while if
every value decodes the call succeeds. -/
theorem C4_failfast (c : Ctx) (A : Int) (db : DB) (hopen : db.isOpen = true) :
    ((∃ e ∈ scanEntries A db, decodeLink e.2 = none) →
        ∃ k, getLinksByUser c A db = Except.error (RepoError.decodeFailed k))
      ∧ ((∀ e ∈ scanEntries A db, (decodeLink e.2).isSome = true) →
        getLinksByUser c A db = Except.ok (sortLinks ((scanEntries A db).map decOf))) := by
  constructor
  · rintro ⟨e, he, hnone⟩
    obtain ⟨k, hk⟩ := decodeAll_fail _ he hnone
    refine ⟨k, ?_⟩
    rw [getLinksByUser, if_pos hopen, hk]
  · intro hall
    rw [getLinksByUser, if_pos hopen, decodeAll_map _ hall]

/-- Claim C4 witness: on a store holding one undecodable value under user
1's prefix, `GetLinksByUser 1` returns a decode error; on a store holding
one well-formed record it succeeds. -/
theorem C4_witness :
    (∃ k, getLinksByUser demoCtx 1 demoCorruptDB
        = Except.error (RepoError.decodeFailed k))
      ∧ getLinksByUser demoCtx 1 (DB.mk [(generateLinkKey 1 demoURL1, encodeLink demoR1)] true)
          = Except.ok (sortLinks ((scanEntries 1 (DB.mk [(generateLinkKey 1 demoURL1, encodeLink demoR1)] true)).map decOf)) :=
  ⟨(C4_failfast demoCtx 1 demoCorruptDB rfl).1
      ⟨(generateLinkKey 1 demoURL1, Json.str "corrupt"),
        List.mem_cons_self _ _, rfl⟩,
    (C4_failfast demoCtx 1 (DB.mk [(generateLinkKey 1 demoURL1, encodeLink demoR1)] true) rfl).2
      (by decide)⟩

/-- Claim C1: isolation.  For every user `A` and every sequence of
`SaveLink` and `DeleteLink` operations with arbitrary (possibly
prefix-colliding) userIDs and arbitrary URLs, every record returned by
`GetLinksByUser A` has `userID = A`; moreover the scan prefix
`generateUserPrefix A` matches exactly the keys `generateLinkKey A url` and
no key of any other user. -/
theorem C1_user_isolation (ops : List Op) (c : Ctx) (A : Int) (links : List Link) (r : Link)
    (hres : getLinksByUser c A (applyOps ops initDB) = Except.ok links)
    (hmem : r ∈ links) :
    r.userID = A
      ∧ ∀ (B : Int) (url : String),
          (PrefOf (generateUserPref A) (generateLinkKey B url) ↔ A = B) := by
  refine ⟨?_, fun B url => key_pref_iff A B url⟩
  have hwf : WFStore (applyOps ops initDB) := wf_applyOps ops initDB wf_initDB
  by_cases hopen : (applyOps ops initDB).isOpen = true
  · rw [getLinksByUser, if_pos hopen] at hres
    cases hall : decodeAll (scanEntries A (applyOps ops initDB)) with
    | error k =>
      rw [hall] at hres
      exact absurd hres (by simp)
    | ok ls =>
      rw [hall] at hres
      simp only [Except.ok.injEq] at hres
      have hmem2 : r ∈ ls := (sortLinks_perm ls).mem_iff.mp (hres ▸ hmem)
      obtain ⟨e, he, hdec⟩ := decodeAll_ok_mem _ _ hall hmem2
      have hef := List.mem_filter.mp he
      obtain ⟨l, hkey, hval⟩ := hwf e hef.1
      rw [hval, decode_encode] at hdec
      have hlr : l = r := Option.some.inj hdec
      have hpref : PrefOf (generateUserPref A) e.1 := (prefMatch_iff _ _).mp hef.2
      rw [hkey] at hpref
      have hAB := (key_pref_iff A l.userID l.url).mp hpref
      rw [← hlr, ← hAB]
  · rw [getLinksByUser, if_neg hopen] at hres
    exact absurd hres (by simp)

/-- Claim C1 witness: after saving one link for user 1 and one for the
prefix-colliding user 12, `GetLinksByUser 1` returns exactly user 1's
record, and its userID is 1. -/
theorem C1_witness :
    getLinksByUser demoCtx 1
        (applyOps [Op.save demoCtx demoR1 5, Op.save demoCtx demoR12 5] initDB)
      = Except.ok [demoR1]
      ∧ demoR1.userID = 1 :=
  ⟨rfl,
    (C1_user_isolation [Op.save demoCtx demoR1 5, Op.save demoCtx demoR12 5] demoCtx 1
      [demoR1] demoR1 rfl (List.mem_cons_self _ _)).1⟩

theorem putEntry_putEntry_length (k : List Char) (v w : Json) :
    ∀ es, (putEntry k v (putEntry k w es)).length = (putEntry k w es).length := by
  intro es
  induction es with
  | nil => simp [putEntry, keyLt_irrefl]
  | cons hd rest ih =>
    obtain ⟨k2, v2⟩ := hd
    by_cases h1 : keyLt k k2 = true
    · simp only [putEntry, if_pos h1]
      simp [putEntry, keyLt_irrefl]
    · by_cases h2 : k = k2
      · simp only [putEntry, if_neg h1, if_pos h2]
        simp [putEntry, keyLt_irrefl]
      · simp only [putEntry, if_neg h1, if_neg h2, List.length_cons, ih]

/-- Claim C3: upsert.  Saving the same (userID, url) pair twice with
different metadata leaves exactly one stored record under that pair's key,
carrying the (timestamp-defaulted) metadata of the second save; the first
value is replaced in place — the store has as many entries after the second
save as after the first — because `generateLinkKey` maps equal pairs to the
same key and distinct pairs to distinct keys. -/
theorem C3_upsert (c1 c2 : Ctx) (l1 l2 : Link) (n1 n2 : Nat) (db db1 db2 : DB)
    (huid : l1.userID = l2.userID) (hurl : l1.url = l2.url)
    (hsorted : KeysSorted db.entries)
    (h1 : saveLink c1 l1 n1 db = Except.ok db1)
    (h2 : saveLink c2 l2 n2 db1 = Except.ok db2) :
    countKey (generateLinkKey l2.userID l2.url) db2.entries = 1
      ∧ lookupKey (generateLinkKey l2.userID l2.url) db2.entries
          = some (encodeLink (withTs n2 l2))
      ∧ db2.entries.length = db1.entries.length
      ∧ ∀ (u v : Int) (s t : String),
          generateLinkKey u s = generateLinkKey v t ↔ (u = v ∧ s = t) := by
  by_cases hopen : db.isOpen = true
  · rw [saveLink_stores c1 l1 n1 hopen] at h1
    have hdb1 : db1 = DB.mk
        (putEntry (generateLinkKey l1.userID l1.url) (encodeLink (withTs n1 l1)) db.entries)
        true :=
      (Except.ok.inj h1).symm
    have hopen1 : db1.isOpen = true := by rw [hdb1]
    rw [saveLink_stores c2 l2 n2 hopen1] at h2
    have hdb2 : db2 = DB.mk
        (putEntry (generateLinkKey l2.userID l2.url) (encodeLink (withTs n2 l2)) db1.entries)
        true :=
      (Except.ok.inj h2).symm
    have hsorted1 : KeysSorted db1.entries := by
      rw [hdb1]
      exact putEntry_sorted _ hsorted
    refine ⟨?_, ?_, ?_, fun u v s t => generateLinkKey_inj⟩
    · rw [hdb2]
      exact countKey_putEntry _ hsorted1
    · rw [hdb2]
      exact lookupKey_putEntry_self _
    · rw [hdb2, hdb1]
      show (putEntry (generateLinkKey l2.userID l2.url) (encodeLink (withTs n2 l2))
          (putEntry (generateLinkKey l1.userID l1.url) (encodeLink (withTs n1 l1))
            db.entries)).length
        = (putEntry (generateLinkKey l1.userID l1.url) (encodeLink (withTs n1 l1))
            db.entries).length
      rw [← huid, ← hurl]
      exact putEntry_putEntry_length _ _ _ _
  · rw [saveLink, if_neg hopen] at h1
    exact absurd h1 (by simp)

/-- Claim C3 witness: after saving `demoR1` and then `demoR1b` (same user
and url, different title, description and timestamp), exactly one record
sits under the shared key and it is the second one. -/
theorem C3_witness :
    ∃ db1 db2, saveLink demoCtx demoR1 1 initDB = Except.ok db1
      ∧ saveLink demoCtx demoR1b 1 db1 = Except.ok db2
      ∧ countKey (generateLinkKey demoR1b.userID demoR1b.url) db2.entries = 1
      ∧ lookupKey (generateLinkKey demoR1b.userID demoR1b.url) db2.entries
          = some (encodeLink (withTs 1 demoR1b))
      ∧ db2.entries.length = db1.entries.length := by
  refine ⟨_, _, rfl, rfl, ?_, ?_, ?_⟩
  · exact (C3_upsert demoCtx demoCtx demoR1 demoR1b 1 1 initDB _ _ rfl rfl
      List.Pairwise.nil rfl rfl).1
  · exact (C3_upsert demoCtx demoCtx demoR1 demoR1b 1 1 initDB _ _ rfl rfl
      List.Pairwise.nil rfl rfl).2.1
  · exact (C3_upsert demoCtx demoCtx demoR1 demoR1b 1 1 initDB _ _ rfl rfl
      List.Pairwise.nil rfl rfl).2.2.1

/-- Claim C2: `GetLinksByUser` sorts by timestamp descending.  First part:
every successful result is weakly descending in timestamp.  Second part
(tie stability): the result, tie order included, is a function of the
scanned entries alone, so the same stored ties always come back in the same
order.  Third part: saving three records for one user with timestamps
T1 < T2 < T3 and distinct URLs makes the call return them as T3, T2, T1. -/
theorem C2_ordering :
    (∀ (c : Ctx) (A : Int) (db : DB) (links : List Link),
        getLinksByUser c A db = Except.ok links →
        links.Pairwise (fun a b : Link => b.timestamp ≤ a.timestamp))
      ∧ (∀ (c : Ctx) (A : Int) (db1 db2 : DB),
          db1.isOpen = db2.isOpen → scanEntries A db1 = scanEntries A db2 →
          getLinksByUser c A db1 = getLinksByUser c A db2)
      ∧ (∀ (c1 c2 c3 c4 : Ctx) (A : Int) (r1 r2 r3 : Link) (n1 n2 n3 : Nat),
          r1.userID = A → r2.userID = A → r3.userID = A →
          r1.url ≠ r2.url → r1.url ≠ r3.url → r2.url ≠ r3.url →
          0 < r1.timestamp → r1.timestamp < r2.timestamp → r2.timestamp < r3.timestamp →
          getLinksByUser c4 A
              (applyOps [Op.save c1 r1 n1, Op.save c2 r2 n2, Op.save c3 r3 n3] initDB)
            = Except.ok [r3, r2, r1]) := by
  refine ⟨?_, ?_, ?_⟩
  · intro c A db links hres
    by_cases hopen : db.isOpen = true
    · rw [getLinksByUser, if_pos hopen] at hres
      cases hall : decodeAll (scanEntries A db) with
      | error k =>
        rw [hall] at hres
        exact absurd hres (by simp)
      | ok ls =>
        rw [hall] at hres
        simp only [Except.ok.injEq] at hres
        rw [← hres]
        exact sortLinks_sorted ls
    · rw [getLinksByUser, if_neg hopen] at hres
      exact absurd hres (by simp)
  · intro c A db1 db2 hopen hscan
    rw [getLinksByUser, getLinksByUser, hopen, hscan]
  · intro c1 c2 c3 c4 A r1 r2 r3 n1 n2 n3 hA1 hA2 hA3 hu12 hu13 hu23 ht1 ht12 ht23
    have hz1 : r1.timestamp ≠ 0 := by omega
    have hz2 : r2.timestamp ≠ 0 := by omega
    have hz3 : r3.timestamp ≠ 0 := by omega
    set k1 := generateLinkKey r1.userID r1.url with hk1
    set k2 := generateLinkKey r2.userID r2.url with hk2
    set k3 := generateLinkKey r3.userID r3.url with hk3
    have hne12 : k1 ≠ k2 := fun h => hu12 (generateLinkKey_inj.mp h).2
    have hne13 : k1 ≠ k3 := fun h => hu13 (generateLinkKey_inj.mp h).2
    have hne23 : k2 ≠ k3 := fun h => hu23 (generateLinkKey_inj.mp h).2
    have e1 : applyOp (Op.save c1 r1 n1) initDB
        = DB.mk (putEntry k1 (encodeLink r1) []) true := by
      simp only [applyOp, @saveLink_stores c1 r1 n1 initDB rfl, withTs_id n1 hz1]
      rfl
    have e2 : applyOp (Op.save c2 r2 n2) (DB.mk (putEntry k1 (encodeLink r1) []) true)
        = DB.mk (putEntry k2 (encodeLink r2) (putEntry k1 (encodeLink r1) [])) true := by
      simp only [applyOp,
        @saveLink_stores c2 r2 n2 (DB.mk (putEntry k1 (encodeLink r1) []) true) rfl,
        withTs_id n2 hz2]
    have e3 : applyOp (Op.save c3 r3 n3)
          (DB.mk (putEntry k2 (encodeLink r2) (putEntry k1 (encodeLink r1) [])) true)
        = DB.mk (putEntry k3 (encodeLink r3)
            (putEntry k2 (encodeLink r2) (putEntry k1 (encodeLink r1) []))) true := by
      simp only [applyOp,
        @saveLink_stores c3 r3 n3
          (DB.mk (putEntry k2 (encodeLink r2) (putEntry k1 (encodeLink r1) [])) true) rfl,
        withTs_id n3 hz3]
    have hdb : applyOps [Op.save c1 r1 n1, Op.save c2 r2 n2, Op.save c3 r3 n3] initDB
        = DB.mk (putEntry k3 (encodeLink r3)
            (putEntry k2 (encodeLink r2) (putEntry k1 (encodeLink r1) []))) true := by
      simp only [applyOps, e1, e2, e3]
    have hp2 : (putEntry k2 (encodeLink r2) (putEntry k1 (encodeLink r1) [])).Perm
        ((k2, encodeLink r2) :: (k1, encodeLink r1) :: []) := by
      apply putEntry_perm_fresh
      intro e he
      simp only [putEntry, List.mem_singleton] at he
      rw [he]
      exact hne12
    have hfresh3 :
        ∀ e ∈ putEntry k2 (encodeLink r2) (putEntry k1 (encodeLink r1) []), e.1 ≠ k3 := by
      intro e he
      rcases mem_putEntry _ he with h | h
      · rw [h]
        exact hne23
      · simp only [putEntry, List.mem_singleton] at h
        rw [h]
        exact hne13
    have hp3 : (putEntry k3 (encodeLink r3)
          (putEntry k2 (encodeLink r2) (putEntry k1 (encodeLink r1) []))).Perm
        ((k3, encodeLink r3) :: (k2, encodeLink r2) :: (k1, encodeLink r1) :: []) :=
      (putEntry_perm_fresh _ hfresh3).trans (hp2.cons (k3, encodeLink r3))
    have hm1 : prefMatch (generateUserPref A) k1 = true := by
      rw [hk1, hA1]
      exact pref_own_key A r1.url
    have hm2 : prefMatch (generateUserPref A) k2 = true := by
      rw [hk2, hA2]
      exact pref_own_key A r2.url
    have hm3 : prefMatch (generateUserPref A) k3 = true := by
      rw [hk3, hA3]
      exact pref_own_key A r3.url
    set db3 : DB := DB.mk (putEntry k3 (encodeLink r3)
      (putEntry k2 (encodeLink r2) (putEntry k1 (encodeLink r1) []))) true with hdb3
    have hscan : (scanEntries A db3).Perm
        ((k3, encodeLink r3) :: (k2, encodeLink r2) :: (k1, encodeLink r1) :: []) := by
      have hfil := List.Perm.filter (fun e => prefMatch (generateUserPref A) e.1) hp3
      rw [show List.filter (fun e => prefMatch (generateUserPref A) e.1)
            ((k3, encodeLink r3) :: (k2, encodeLink r2) :: (k1, encodeLink r1) :: [])
          = ((k3, encodeLink r3) :: (k2, encodeLink r2) :: (k1, encodeLink r1) :: []) from by
        simp [List.filter_cons, hm1, hm2, hm3]] at hfil
      exact hfil
    have hall : ∀ e ∈ scanEntries A db3, (decodeLink e.2).isSome = true := by
      intro e he
      have hmem := hscan.mem_iff.mp he
      simp only [List.mem_cons, List.not_mem_nil, or_false] at hmem
      rcases hmem with rfl | rfl | rfl <;> simp [decode_encode]
    have hdecall : decodeAll (scanEntries A db3)
        = Except.ok ((scanEntries A db3).map decOf) := decodeAll_map _ hall
    have hl0 : ((scanEntries A db3).map decOf).Perm [r3, r2, r1] := by
      have hmap := hscan.map decOf
      rw [show ((k3, encodeLink r3) :: (k2, encodeLink r2) :: (k1, encodeLink r1) :: []).map decOf
          = [r3, r2, r1] from by simp [decOf, decode_encode]] at hmap
      exact hmap
    have hstrict : ([r3, r2, r1] : List Link).Pairwise
        (fun a b : Link => b.timestamp < a.timestamp) := by
      simp only [List.pairwise_cons, List.mem_cons, List.mem_singleton, List.not_mem_nil,
        List.Pairwise.nil]
      refine ⟨fun x hx => ?_, fun x hx => ?_, by simp⟩
      · rcases hx with rfl | rfl | hx
        · omega
        · omega
        · exact hx.elim
      · rcases hx with rfl | hx
        · omega
        · exact hx.elim
    have hfinal : sortLinks ((scanEntries A db3).map decOf) = [r3, r2, r1] :=
      sorted_perm_eq_strict _ _ ((sortLinks_perm _).trans hl0) (sortLinks_sorted _) hstrict
    rw [hdb, getLinksByUser, if_pos rfl, hdecall]
    show Except.ok (sortLinks (List.map decOf (scanEntries A db3))) = Except.ok [r3, r2, r1]
    rw [hfinal]

/-- Claim C2 witness: three concrete records for user 1 with timestamps
10 < 20 < 30 come back as 30, 20, 10. -/
theorem C2_witness :
    getLinksByUser demoCtx 1
        (applyOps [Op.save demoCtx demoR1 1, Op.save demoCtx demoR2 1, Op.save demoCtx demoR3 1]
          initDB)
      = Except.ok [demoR3, demoR2, demoR1] :=
  C2_ordering.2.2 demoCtx demoCtx demoCtx demoCtx 1 demoR1 demoR2 demoR3 1 1 1
    rfl rfl rfl (by decide) (by decide) (by decide) (by decide) (by decide) (by decide)

end JetEngine
